import Mathlib

/-!
Verification development for the transcript-pipeline utility module
(`src/utils.py` of alpineinsights/pilatusAPI).

Python strings are modelled as `List Char` (`PyStr`).  Each Python string
operation used by the source is embedded as a structural Lean function with
the same semantics at its call sites:

* `str.replace(pat, rep)` with a one-character pattern → `pyReplaceChar`,
  with a two-character pattern → `pyReplacePair` (leftmost, non-overlapping);
* `str.split(sep)` with a one-character separator → `pySplitChar`,
  with a two-character separator → `pySplitPair`;
* `str.split()` (no argument: split on whitespace runs, dropping empty
  pieces) → `pyTokens`;
* `str.strip()` → `pyStrip`; `str.lower()` → `pyLower` (ASCII case folding;
  the sources only feed it ASCII-relevant data); `str.isdigit()` →
  `pyIsDigit`; `in` (substring test) → `pyContains`;
* `os.path.splitext` → `splitextExt` (mirrors CPython `genericpath._splitext`
  for POSIX separators: the extension starts at the last dot of the final
  path component, unless that component consists only of leading dots).

HTTP effects are modelled by passing an explicit oracle
`fetch : PyStr → Bool → FetchResult` (URL, whether the `X-Api-Key` header is
attached); stateful code is modelled by explicitly returning the list of
requests that were issued.
-/

namespace Pilatus

/-- Python strings, modelled as lists of characters. -/
abbrev PyStr := List Char

/-- Whitespace recognised by Python `str.split()` / `str.strip()`
(ASCII subset: space, tab, newline, carriage return, vertical tab, form feed). -/
def pyIsSpace (c : Char) : Bool :=
  c = ' ' || c = '\t' || c = '\n' || c = '\r' || c = '\x0b' || c = '\x0c'

/-- Python `str.strip()`: drop leading and trailing whitespace. -/
def pyStrip (l : PyStr) : PyStr :=
  ((l.dropWhile pyIsSpace).reverse.dropWhile pyIsSpace).reverse

/-- Split a list at every character satisfying `P`, keeping empty pieces
(the semantics of Python `str.split(sep)` for a one-character separator,
with `P` testing equality with that separator). -/
def pySplitOnP (P : Char → Bool) : PyStr → List PyStr
  | [] => [[]]
  | c :: rest =>
    if P c then [] :: pySplitOnP P rest
    else
      match pySplitOnP P rest with
      | p :: ps => (c :: p) :: ps
      | [] => [[c]]

/-- Python `str.split(sep)` for a one-character separator `a`. -/
def pySplitChar (a : Char) (l : PyStr) : List PyStr :=
  pySplitOnP (fun c => c = a) l

/-- Python `str.split(sep)` for a two-character separator `a b`
(leftmost, non-overlapping occurrences). -/
def pySplitPair (a b : Char) : PyStr → List PyStr
  | [] => [[]]
  | [c] => [[c]]
  | c :: d :: rest =>
    if c = a ∧ d = b then [] :: pySplitPair a b rest
    else
      match pySplitPair a b (d :: rest) with
      | p :: ps => (c :: p) :: ps
      | [] => [[c]]

/-- Python `str.replace(pat, rep)` for a one-character pattern `a`. -/
def pyReplaceChar (a : Char) (rep : PyStr) : PyStr → PyStr
  | [] => []
  | c :: rest =>
    if c = a then rep ++ pyReplaceChar a rep rest
    else c :: pyReplaceChar a rep rest

/-- Python `str.replace(pat, rep)` for a two-character pattern `a b`
(leftmost, non-overlapping occurrences). -/
def pyReplacePair (a b : Char) (rep : PyStr) : PyStr → PyStr
  | [] => []
  | [c] => [c]
  | c :: d :: rest =>
    if c = a ∧ d = b then rep ++ pyReplacePair a b rep rest
    else c :: pyReplacePair a b rep (d :: rest)

/-- Python `sep.join(pieces)`. -/
def pyJoin (sep : PyStr) : List PyStr → PyStr
  | [] => []
  | [x] => x
  | x :: xs => x ++ sep ++ pyJoin sep xs

/-- Python `str.split()` with no argument: the whitespace-separated tokens,
with empty pieces discarded. -/
def pyTokens (l : PyStr) : List PyStr :=
  (pySplitOnP pyIsSpace l).filter (· ≠ [])

/-- Python `' '.join(text.split())`: collapse whitespace runs to single
spaces and strip the ends. -/
def pyCollapse (l : PyStr) : PyStr :=
  pyJoin [' '] (pyTokens l)

/-- Python `str.lower()` (ASCII case folding). -/
def pyLower (l : PyStr) : PyStr := l.map Char.toLower

/-- Python `str.isdigit()` (ASCII digits): non-empty and all digits. -/
def pyIsDigit (l : PyStr) : Bool := !l.isEmpty && l.all Char.isDigit

/-- Python substring test `pat in l`. -/
def pyContains (pat : PyStr) : PyStr → Bool
  | [] => pat.isEmpty
  | l@(_ :: rest) => pat.isPrefixOf l || pyContains pat rest

/-- Index of the last occurrence of `c` in `l` (Python `str.rfind`,
with `none` for "not found"). -/
def pyRfindChar (c : Char) (l : PyStr) : Option Nat :=
  match (l.reverse).findIdx? (fun d => d = c) with
  | some j => some (l.length - 1 - j)
  | none => none

/-- Extension component of `os.path.splitext` (POSIX rules, mirroring
CPython `genericpath._splitext`): the suffix of `p` starting at the last
dot, provided that dot lies in the last path component and that component
has a non-dot character before the dot. -/
def splitextExt (p : PyStr) : PyStr :=
  let s := match pyRfindChar '/' p with
    | some i => i + 1
    | none => 0
  match pyRfindChar '.' p with
  | some d =>
    if s ≤ d && ((p.drop s).take (d - s)).any (fun c => c ≠ '.') then p.drop d
    else []
  | none => []

/-- `SupabaseStorageHandler.create_filename` (src/utils.py lines 75-90):
sanitises the company name and date, takes the extension of the original
filename via `os.path.splitext` (defaulting to `.pdf` when there is none),
and builds the path `company/type/company_date_type.ext`.  The sanitised
title is computed by the source but unused in the result. -/
def supabase_create_filename (company_name event_date event_title
    doc_type original_filename : PyStr) : PyStr :=
  let safe_company :=
    pyReplaceChar '-' ['_'] (pyReplaceChar ' ' ['_'] (pyLower company_name))
  let safe_date := pyReplaceChar '-' [] event_date
  let _safe_title := (pyReplaceChar ' ' ['_'] (pyLower event_title)).take 30
  let ext0 := splitextExt original_filename
  let ext := if ext0 = [] then (".pdf").toList else ext0
  safe_company ++ ['/'] ++ doc_type ++ ['/'] ++ safe_company ++ ['_'] ++
    safe_date ++ ['_'] ++ doc_type ++ ext

/-- `S3Handler.create_filename` (src/utils.py lines 441-454): sanitises the
inputs, strips any query string from the original filename, forces the
extension `pdf` when `doc_type` is `transcript` and otherwise lowercases
the part of the original filename after its last dot, and builds the flat
key `company_date_event_type.ext`. -/
def s3_create_filename (company_name event_date event_title
    doc_type original_filename : PyStr) : PyStr :=
  let clean_company :=
    pyLower (pyReplaceChar '/' ['_'] (pyReplaceChar ' ' ['_'] company_name))
  let clean_event := pyLower (pyReplaceChar ' ' ['_'] event_title)
  let clean_date := (pySplitChar 'T' event_date).headD []
  let orig :=
    if ('?') ∈ original_filename then (pySplitChar '?' original_filename).headD []
    else original_filename
  let file_extension :=
    if doc_type = ("transcript").toList then ("pdf").toList
    else pyLower ((pySplitChar '.' orig).getLastD [])
  clean_company ++ ['_'] ++ clean_date ++ ['_'] ++ clean_event ++ ['_'] ++
    doc_type ++ ('.' :: file_extension)

theorem s3_transcript_key_ends_pdf (company_name event_date event_title
    original_filename : PyStr) :
    (".pdf").toList.isSuffixOf
      (s3_create_filename company_name event_date event_title
        (("transcript").toList) original_filename) = true := by
  rw [List.isSuffixOf_iff_suffix]
  simp only [s3_create_filename, if_pos rfl]
  exact List.suffix_append _ _

/-- C1 (counterexample): the Supabase backend's key construction does not
force a `.pdf` extension for transcripts: for the original filename
`foo.docx` and `doc_type = "transcript"` the produced key ends in `.docx`. -/
theorem c1_transcript_key_pdf_counterexample :
    (".pdf").toList.isSuffixOf
      (supabase_create_filename (("Acme").toList) (("2024-01-01").toList)
        (("Q1 Call").toList) (("transcript").toList) (("foo.docx").toList))
      = false := by
  decide

/-- C1 (amended): only the S3 backend's key construction always forces a
`.pdf` extension for transcript-type documents; the Supabase backend's key
ends with the original filename's `os.path.splitext` extension whenever
there is one (for any doc_type, transcripts included), and ends in `.pdf`
only when the original filename has no extension. -/
theorem c1_transcript_key_extensions :
    (∀ company_name event_date event_title original_filename : PyStr,
      (".pdf").toList.isSuffixOf
        (s3_create_filename company_name event_date event_title
          (("transcript").toList) original_filename) = true) ∧
    (∀ company_name event_date event_title original_filename : PyStr,
      splitextExt original_filename = [] →
      (".pdf").toList.isSuffixOf
        (supabase_create_filename company_name event_date event_title
          (("transcript").toList) original_filename) = true) ∧
    (∀ company_name event_date event_title doc_type original_filename : PyStr,
      splitextExt original_filename ≠ [] →
      (splitextExt original_filename).isSuffixOf
        (supabase_create_filename company_name event_date event_title
          doc_type original_filename) = true) := by
  refine ⟨s3_transcript_key_ends_pdf, ?_, ?_⟩
  · intro company_name event_date event_title original_filename h
    rw [List.isSuffixOf_iff_suffix]
    simp only [supabase_create_filename, if_pos h]
    exact List.suffix_append _ _
  · intro company_name event_date event_title doc_type original_filename h
    rw [List.isSuffixOf_iff_suffix]
    simp only [supabase_create_filename, if_neg h]
    exact List.suffix_append _ _

theorem c1_transcript_key_extensions_witness :
    splitextExt (("foo.docx").toList) ≠ [] ∧
    (splitextExt (("foo.docx").toList)).isSuffixOf
      (supabase_create_filename (("Acme").toList) (("2024-01-01").toList)
        (("Q1 Call").toList) (("transcript").toList) (("foo.docx").toList))
      = true ∧
    splitextExt (("noext").toList) = [] ∧
    (".pdf").toList.isSuffixOf
      (supabase_create_filename (("Acme").toList) (("2024-01-01").toList)
        (("Q1 Call").toList) (("transcript").toList) (("noext").toList))
      = true :=
  ⟨by decide,
    c1_transcript_key_extensions.2.2 _ _ _ _ _ (by decide),
    by decide,
    c1_transcript_key_extensions.2.1 _ _ _ _ (by decide)⟩

/-! ## The text formatter (`TranscriptProcessor.format_transcript_text`) -/

/-- Sentence list computed by `format_transcript_text`
(src/utils.py lines 325-332): replace literal `\n` escapes by newlines,
collapse whitespace, split on periods, strip each piece and drop the empty
ones. -/
def sentencesOf (text : PyStr) : List PyStr :=
  let t1 := pyReplacePair '\\' 'n' ['\n'] text
  let t2 := pyCollapse t1
  ((pySplitChar '.' t2).map pyStrip).filter (· ≠ [])

/-- `TranscriptProcessor.format_transcript_text` (src/utils.py lines
322-335): rejoin the sentences with `".\n\n"` and append a final period. -/
def format_transcript_text (text : PyStr) : PyStr :=
  pyJoin ((".\n\n").toList) (sentencesOf text) ++ ['.']

/-- C9: formatting `"Hello. World."` yields exactly `"Hello.\n\nWorld."`:
two sentences separated by one blank line, trailing period preserved. -/
theorem c9_format_hello_world :
    format_transcript_text (("Hello. World.").toList)
      = ("Hello.\n\nWorld.").toList := by
  decide

/-- C2 (counterexample): `format_transcript_text` applied to the empty
string does not return the empty string (it returns `"."`). -/
theorem c2_format_empty_counterexample :
    format_transcript_text ([] : PyStr) ≠ [] := by
  decide

/-! ## Basic lemmas about the string primitives -/

theorem pySplitOnP_ne_nil (P : Char → Bool) (l : PyStr) : pySplitOnP P l ≠ [] := by
  cases l with
  | nil => simp [pySplitOnP]
  | cons c rest =>
    simp only [pySplitOnP]
    split
    · simp
    · split <;> simp

theorem pySplitOnP_cons_pos {P : Char → Bool} {c : Char} (h : P c = true)
    (l : PyStr) : pySplitOnP P (c :: l) = [] :: pySplitOnP P l := by
  simp [pySplitOnP, h]

theorem pySplitOnP_cons_neg {P : Char → Bool} {c : Char} (h : P c = false)
    (l : PyStr) : ∃ q qs, pySplitOnP P l = q :: qs ∧
      pySplitOnP P (c :: l) = (c :: q) :: qs := by
  obtain ⟨q, qs, hq⟩ : ∃ q qs, pySplitOnP P l = q :: qs := by
    cases hl : pySplitOnP P l with
    | nil => exact absurd hl (pySplitOnP_ne_nil P l)
    | cons q qs => exact ⟨q, qs, rfl⟩
  refine ⟨q, qs, hq, ?_⟩
  simp [pySplitOnP, h, hq]

theorem mem_pySplitOnP (P : Char → Bool) :
    ∀ l : PyStr, ∀ p ∈ pySplitOnP P l, ∀ c ∈ p, P c = false ∧ c ∈ l := by
  intro l
  induction l with
  | nil =>
    intro p hp c hc
    simp only [pySplitOnP, List.mem_singleton] at hp
    subst hp
    simp at hc
  | cons a rest IH =>
    intro p hp c hc
    by_cases hPa : P a = true
    · rw [pySplitOnP_cons_pos hPa] at hp
      rcases List.mem_cons.mp hp with h | h
      · subst h; simp at hc
      · obtain ⟨h1, h2⟩ := IH p h c hc
        exact ⟨h1, List.mem_cons_of_mem a h2⟩
    · rw [Bool.not_eq_true] at hPa
      obtain ⟨q, qs, hq, hcons⟩ := pySplitOnP_cons_neg hPa rest
      rw [hcons] at hp
      rcases List.mem_cons.mp hp with h | h
      · subst h
        rcases List.mem_cons.mp hc with h' | h'
        · subst h'; exact ⟨hPa, List.mem_cons_self _ _⟩
        · obtain ⟨h1, h2⟩ := IH q (hq ▸ List.mem_cons_self q qs) c h'
          exact ⟨h1, List.mem_cons_of_mem a h2⟩
      · obtain ⟨h1, h2⟩ := IH p (hq ▸ List.mem_cons_of_mem q h) c hc
        exact ⟨h1, List.mem_cons_of_mem a h2⟩

theorem pyStrip_eq_nil_of_all_space {l : PyStr}
    (h : ∀ c ∈ l, pyIsSpace c = true) : pyStrip l = [] := by
  have h1 : l.dropWhile pyIsSpace = [] := List.dropWhile_eq_nil_iff.mpr h
  simp [pyStrip, h1]

theorem mem_pyTokens {l : PyStr} {p : PyStr} (hp : p ∈ pyTokens l) :
    ∀ c ∈ p, pyIsSpace c = false ∧ c ∈ l := by
  intro c hc
  exact mem_pySplitOnP pyIsSpace l p (List.mem_filter.mp hp).1 c hc

theorem mem_pyJoin_space {W : List PyStr} {c : Char}
    (hc : c ∈ pyJoin [' '] W) : c = ' ' ∨ ∃ w ∈ W, c ∈ w := by
  induction W with
  | nil => simp [pyJoin] at hc
  | cons w ws IH =>
    cases ws with
    | nil =>
      simp only [pyJoin] at hc
      exact Or.inr ⟨w, List.mem_cons_self _ _, hc⟩
    | cons w' ws' =>
      simp only [pyJoin, List.append_assoc, List.mem_append,
        List.mem_singleton] at hc
      rcases hc with h | h | h
      · exact Or.inr ⟨w, List.mem_cons_self _ _, h⟩
      · exact Or.inl h
      · rcases IH h with h' | ⟨u, hu, hcu⟩
        · exact Or.inl h'
        · exact Or.inr ⟨u, List.mem_cons_of_mem w hu, hcu⟩

theorem pyReplacePair_id_of_not_mem {a b : Char} {rep l : PyStr}
    (h : a ∉ l) : pyReplacePair a b rep l = l := by
  induction l with
  | nil => rfl
  | cons c rest IH =>
    have hca : c ≠ a := fun hc => h (hc ▸ List.mem_cons_self _ _)
    cases rest with
    | nil => rfl
    | cons d r =>
      have : ¬(c = a ∧ d = b) := fun ⟨h1, _⟩ => hca h1
      simp only [pyReplacePair, if_neg this]
      rw [IH (fun hm => h (List.mem_cons_of_mem c hm))]

/-- Shared helper: an input consisting only of whitespace and periods has
no sentences (every piece of the period-split is all-whitespace, so every
stripped piece is empty). -/
theorem sentencesOf_eq_nil_of_wsdot {s : PyStr}
    (h : ∀ c ∈ s, pyIsSpace c = true ∨ c = '.') : sentencesOf s = [] := by
  have hbs : ('\\') ∉ s := by
    intro hm
    rcases h _ hm with h' | h' <;> simp [pyIsSpace] at h'
  have ht1 : pyReplacePair '\\' 'n' ['\n'] s = s := pyReplacePair_id_of_not_mem hbs
  simp only [sentencesOf, ht1]
  rw [List.filter_eq_nil_iff]
  intro p hp
  obtain ⟨q, hq, hpq⟩ := List.mem_map.mp hp
  subst hpq
  simp only [ne_eq, decide_not, Bool.not_eq_true', decide_eq_true_eq,
    Bool.not_eq_true, decide_eq_false_iff_not, Decidable.not_not]
  apply pyStrip_eq_nil_of_all_space
  intro c hc
  obtain ⟨hcdot, hct2⟩ := mem_pySplitOnP _ _ q hq c hc
  rcases mem_pyJoin_space hct2 with h' | ⟨w, hw, hcw⟩
  · simp [pyIsSpace, h']
  · obtain ⟨hcns, hcs⟩ := mem_pyTokens hw c hcw
    rcases h c hcs with h' | h'
    · exact h'
    · subst h'
      simp [pySplitChar] at hcdot

/-- C2 (amended): `format_transcript_text` applied to the empty string
returns `"."` (a single period, not the empty string), and more generally
any input consisting only of whitespace and period characters produces the
one-character output `"."`. -/
theorem c2_format_wsdot_is_dot :
    format_transcript_text ([] : PyStr) = ['.'] ∧
    ∀ s : PyStr, (∀ c ∈ s, pyIsSpace c = true ∨ c = '.') →
      format_transcript_text s = ['.'] := by
  refine ⟨by decide, fun s hs => ?_⟩
  rw [format_transcript_text, sentencesOf_eq_nil_of_wsdot hs]
  rfl

theorem c2_format_wsdot_is_dot_witness :
    (∀ c ∈ ((" .. \t.").toList), pyIsSpace c = true ∨ c = '.') ∧
    format_transcript_text ((" .. \t.").toList) = ['.'] :=
  ⟨by decide, c2_format_wsdot_is_dot.2 _ (by decide)⟩

/-- C10: for every input, the output of `format_transcript_text` is
non-empty and ends in a period; in particular whitespace-only or
periods-only inputs (the empty string included) yield exactly `"."`. -/
theorem c10_format_ends_with_period :
    ∀ s : PyStr, (format_transcript_text s ≠ [] ∧
      (format_transcript_text s).getLast? = some '.') ∧
      ((∀ c ∈ s, pyIsSpace c = true ∨ c = '.') →
        format_transcript_text s = ['.']) := by
  intro s
  refine ⟨⟨?_, ?_⟩, fun hs => ?_⟩
  · rw [format_transcript_text]
    intro hnil
    have := List.append_eq_nil.mp hnil
    simp at this
  · rw [format_transcript_text]
    exact List.getLast?_concat _
  · rw [format_transcript_text, sentencesOf_eq_nil_of_wsdot hs]
    rfl

theorem c10_format_ends_with_period_witness :
    ((format_transcript_text ((" \t ").toList) ≠ [] ∧
      (format_transcript_text ((" \t ").toList)).getLast? = some '.') ∧
      format_transcript_text ((" \t ").toList) = ['.']) :=
  ⟨(c10_format_ends_with_period _).1,
    (c10_format_ends_with_period _).2 (by decide)⟩

/-! ## The document renderer (`TranscriptProcessor.create_pdf`) -/

/-- The XML escaping applied by `create_pdf` to the company name, the event
title and every body paragraph (src/utils.py lines 378, 380, 392):
`.replace('&', '&amp;').replace('<', '&lt;').replace('>', '&gt;')`,
ampersand first. -/
def escapeMarkup (l : PyStr) : PyStr :=
  pyReplaceChar '>' (("&gt;").toList)
    (pyReplaceChar '<' (("&lt;").toList)
      (pyReplaceChar '&' (("&amp;").toList) l))

/-- The entity a single character is rendered as by the escaping. -/
def entityOf (c : Char) : PyStr :=
  if c = '&' then ("&amp;").toList
  else if c = '<' then ("&lt;").toList
  else if c = '>' then ("&gt;").toList
  else [c]

/-- Scanner for raw markup characters: `noRawMarkup l = true` when `l`
contains no `<` or `>` and every `&` in `l` begins one of the entities
`&amp;`, `&lt;`, `&gt;`. -/
def noRawMarkup : PyStr → Bool
  | [] => true
  | c :: rest =>
    if c = '<' ∨ c = '>' then false
    else if c = '&' then
      match rest with
      | 'a' :: 'm' :: 'p' :: ';' :: r => noRawMarkup r
      | 'l' :: 't' :: ';' :: r => noRawMarkup r
      | 'g' :: 't' :: ';' :: r => noRawMarkup r
      | _ => false
    else noRawMarkup rest

theorem pyReplaceChar_cons (a : Char) (rep : PyStr) (c : Char) (v : PyStr) :
    pyReplaceChar a rep (c :: v)
      = (if c = a then rep else [c]) ++ pyReplaceChar a rep v := by
  by_cases hc : c = a <;> simp [pyReplaceChar, hc]

theorem pyReplaceChar_append (a : Char) (rep : PyStr) (u v : PyStr) :
    pyReplaceChar a rep (u ++ v)
      = pyReplaceChar a rep u ++ pyReplaceChar a rep v := by
  induction u with
  | nil => rfl
  | cons c cs IH => by_cases hc : c = a <;> simp [pyReplaceChar, hc, IH]

theorem escape_entity (c : Char) :
    pyReplaceChar '>' (("&gt;").toList)
      (pyReplaceChar '<' (("&lt;").toList)
        (if c = '&' then ("&amp;").toList else [c])) = entityOf c := by
  by_cases h1 : c = '&'
  · subst h1; decide
  by_cases h2 : c = '<'
  · subst h2; decide
  by_cases h3 : c = '>'
  · subst h3; decide
  simp [pyReplaceChar, entityOf, h1, h2, h3]

theorem escapeMarkup_eq_flatten (l : PyStr) :
    escapeMarkup l = (l.map entityOf).flatten := by
  induction l with
  | nil => rfl
  | cons c rest IH =>
    simp only [escapeMarkup] at IH ⊢
    rw [pyReplaceChar_cons, pyReplaceChar_append, pyReplaceChar_append,
      escape_entity, List.map_cons, List.flatten_cons, IH]

theorem noRawMarkup_entity (c : Char) (r : PyStr) :
    noRawMarkup (entityOf c ++ r) = noRawMarkup r := by
  by_cases h1 : c = '&'
  · subst h1; rfl
  by_cases h2 : c = '<'
  · subst h2; rfl
  by_cases h3 : c = '>'
  · subst h3; rfl
  have hc : ¬(c = '<' ∨ c = '>') := by
    rintro (h | h) <;> [exact h2 h; exact h3 h]
  have hent : entityOf c = [c] := by simp [entityOf, h1, h2, h3]
  rw [hent, List.singleton_append, noRawMarkup.eq_def]
  simp [h1, hc]

theorem noRawMarkup_escape (l : PyStr) : noRawMarkup (escapeMarkup l) = true := by
  rw [escapeMarkup_eq_flatten]
  induction l with
  | nil => rfl
  | cons c rest IH =>
    rw [List.map_cons, List.flatten_cons, noRawMarkup_entity, IH]

/-- Items appended to the layout "story" by `create_pdf`: paragraphs (with
their escaped text) and vertical spacers. -/
inductive StoryItem where
  | para (text : PyStr)
  | spacer (width height : Nat)
deriving DecidableEq

/-- Header paragraph text (src/utils.py lines 376-383): the f-string
template with the (already escaped) company name and event title and the
raw event date substituted. -/
def headerText (company title date : PyStr) : PyStr :=
  ("\n            <para alignment=\"center\">\n            <b>").toList ++
    company ++
    ("</b><br/>\n            <br/>\n            Event: ").toList ++
    title ++
    ("<br/>\n            Date: ").toList ++
    date ++
    ("\n            </para>\n        ").toList

/-- Body part of the story (src/utils.py lines 388-398): the transcript
text is split on blank lines (`'\n\n'`); every piece with non-empty strip
contributes one paragraph (stripped then escaped) and one small spacer. -/
def bodyStory (transcript_text : PyStr) : List StoryItem :=
  ((pySplitPair '\n' '\n' transcript_text).map (fun p =>
    if pyStrip p ≠ [] then
      [StoryItem.para (escapeMarkup (pyStrip p)), StoryItem.spacer 1 6]
    else [])).flatten

/-- The full story assembled by `create_pdf` before `doc.build` is called:
header paragraph, large spacer, then the body. -/
def createPdfStory (company_name event_title event_date
    transcript_text : PyStr) : List StoryItem :=
  StoryItem.para (headerText (escapeMarkup company_name)
      (escapeMarkup event_title) event_date)
    :: StoryItem.spacer 1 30 :: bodyStory transcript_text

/-- `TranscriptProcessor.create_pdf` (src/utils.py lines 338-407) with the
layout engine abstracted as `build` (`none` models a `doc.build` failure,
caught and degraded to `b''`).  The boolean flag records whether the layout
engine was invoked: on empty transcript text the function returns `b''`
before any document template or story is constructed. -/
def create_pdf (build : List StoryItem → Option (List UInt8))
    (company_name event_title event_date transcript_text : PyStr) :
    List UInt8 × Bool :=
  if transcript_text = [] then ([], false)
  else
    ((build (createPdfStory company_name event_title event_date
        transcript_text)).getD [], true)

/-- C6: for every layout engine and all header inputs, `create_pdf` with
empty transcript text returns the empty byte sequence and never invokes
the layout engine (no template is constructed, no paragraph laid out):
the result is `([], false)` uniformly in `build`. -/
theorem c6_create_pdf_empty_input (build : List StoryItem → Option (List UInt8))
    (company_name event_title event_date : PyStr) :
    create_pdf build company_name event_title event_date [] = ([], false) := rfl

/-- C4: the escaping used by `create_pdf` replaces `&`, `<`, `>` by their
entities character-wise (ampersand first, so entities are not
double-escaped: the composite of the three replacements equals the
character-wise entity map), its output contains no raw `<` or `>` and
every `&` begins an entity; the company name and event title enter the
header escaped, and every body paragraph of the story is the escaped form
of some source text. -/
theorem c4_create_pdf_escaping :
    (∀ s : PyStr, escapeMarkup s = (s.map entityOf).flatten) ∧
    (∀ s : PyStr, noRawMarkup (escapeMarkup s) = true) ∧
    (∀ company_name event_title event_date transcript_text : PyStr,
      createPdfStory company_name event_title event_date transcript_text =
        StoryItem.para (headerText (escapeMarkup company_name)
            (escapeMarkup event_title) event_date)
          :: StoryItem.spacer 1 30 :: bodyStory transcript_text) ∧
    (∀ transcript_text p, StoryItem.para p ∈ bodyStory transcript_text →
      ∃ q, p = escapeMarkup q ∧ noRawMarkup p = true) := by
  refine ⟨escapeMarkup_eq_flatten, noRawMarkup_escape, fun _ _ _ _ => rfl, ?_⟩
  intro txt p hp
  simp only [bodyStory, List.mem_flatten] at hp
  obtain ⟨items, hitems, hmem⟩ := hp
  obtain ⟨piece, _, hitems'⟩ := List.mem_map.mp hitems
  subst hitems'
  by_cases hs : pyStrip piece ≠ []
  · rw [if_pos hs] at hmem
    rcases List.mem_cons.mp hmem with h | h
    · simp only [StoryItem.para.injEq] at h
      subst h
      exact ⟨pyStrip piece, rfl, noRawMarkup_escape _⟩
    · simp at h
  · rw [if_neg hs] at hmem
    simp at hmem

theorem c4_create_pdf_escaping_witness :
    StoryItem.para (("a&amp;b").toList) ∈ bodyStory (("a&b").toList) ∧
    ∃ q, ("a&amp;b").toList = escapeMarkup q ∧
      noRawMarkup (("a&amp;b").toList) = true :=
  ⟨by decide, c4_create_pdf_escaping.2.2.2 (("a&b").toList)
    (("a&amp;b").toList) (by decide)⟩

/-! ## HTTP model and the metadata client / transcript resolver -/

/-- JSON values, at the granularity the source inspects them. -/
inductive JVal where
  | jstr (s : PyStr)
  | jdict (fields : List (PyStr × JVal))
  | jlist (elems : List JVal)
  | jnull

/-- Lookup in a JSON object (Python `d[k]` / `d.get(k)` when the key test
succeeded). -/
def jLookup (fields : List (PyStr × JVal)) (k : PyStr) : Option JVal :=
  (fields.find? (fun kv => kv.1 == k)).map (fun kv => kv.2)

/-- Python `k in lst` for a JSON list: true iff some element is the string
`k`. -/
def jlistHasStr (k : PyStr) (es : List JVal) : Bool :=
  es.any (fun e => match e with
    | .jstr s => s == k
    | _ => false)

/-- An HTTP response body: the raw text payload together with its JSON
parse (`none` when JSON parsing raises). -/
structure HttpBody where
  raw : PyStr
  json : Option JVal

/-- Result of `session.get`: a transport exception, or a response with a
status code and a body. -/
inductive FetchResult where
  | exc
  | resp (status : Nat) (body : HttpBody)

/-- A request issued by the code under test: the target URL and whether
the `X-Api-Key` header was attached. -/
abbrev Request := PyStr × Bool

/-- The nested `liveTranscripts` object of an event's transcripts dict.
Here `none` conflates an absent `finishedLiveTranscriptUrl` key with a
`None` value: line 261 tests membership on this dict and then truthiness
of the value, and both cases behave identically under that conjunction. -/
structure LiveTranscripts where
  finishedLiveTranscriptUrl : Option PyStr

/-- Value stored under the `liveTranscripts` key when that key is present:
JSON `null` or a nested object.  The distinction matters because line 261
runs a membership test on this value: `'finishedLiveTranscriptUrl' in
None` raises `TypeError` (caught only by the outer handler at line 318),
whereas membership in a dict is an ordinary key test.  (Other JSON types
for this value are not modelled.) -/
inductive LiveVal where
  | lnull
  | lobj (lt : LiveTranscripts)

/-- The `transcripts` dict passed to `process_transcript`.  For
`transcriptUrl`, `none` conflates an absent key with a `None` value: the
code tests membership on the `transcripts` dict itself and then
truthiness, which treat the two alike.  For `liveTranscripts` the two
must be distinguished: `none` models an absent key (so
`transcripts.get('liveTranscripts', {})` yields `{}`), while
`some LiveVal.lnull` models a present key whose value is `None`. -/
structure Transcripts where
  transcriptUrl : Option PyStr
  liveTranscripts : Option LiveVal

/-- Python truthiness of an optional string field. -/
def optTruthy : Option PyStr → Bool
  | some s => !s.isEmpty
  | none => false

/-- The URL stored at
`transcripts['liveTranscripts']['finishedLiveTranscriptUrl']` when the
`liveTranscripts` value is an object holding one. -/
def finishedLiveUrl (ts : Transcripts) : Option PyStr :=
  match ts.liveTranscripts with
  | some (LiveVal.lobj lt) => lt.finishedLiveTranscriptUrl
  | _ => none

/-- Raw-transcript-URL selection (src/utils.py lines 256-262): the direct
`transcriptUrl` field when present and truthy, else the nested finished
live transcript URL when present and truthy, else nothing.  `.error`
models the `TypeError` raised by line 261's membership test
`'finishedLiveTranscriptUrl' in transcripts.get('liveTranscripts', {})`
when the stored `liveTranscripts` value is `None` (the `elif` is only
reached — and the exception only raised — when the `transcriptUrl`
condition was falsy). -/
def selectRawUrl (ts : Transcripts) : Except Unit (Option PyStr) :=
  if optTruthy ts.transcriptUrl then Except.ok ts.transcriptUrl
  else
    match ts.liveTranscripts with
    | none => Except.ok none
    | some LiveVal.lnull => Except.error ()
    | some (LiveVal.lobj lt) =>
      if optTruthy lt.finishedLiveTranscriptUrl then
        Except.ok lt.finishedLiveTranscriptUrl
      else Except.ok none

/-- Text extraction from a JSON value found under the `transcript` key:
`transcript_data['transcript'].get('text', '')` plus the truthiness check
on the result.  `.error` models a raised exception (`.get` on a non-dict,
or formatting a truthy non-string); `.ok none` a fall-through. -/
def textFromTranscriptVal : JVal → Except Unit (Option PyStr)
  | .jdict ws =>
    match jLookup ws (("text").toList) with
    | some (.jstr t) =>
      if t.isEmpty then .ok none else .ok (some (format_transcript_text t))
    | some (.jdict ds) => if ds.isEmpty then .ok none else .error ()
    | some (.jlist es) => if es.isEmpty then .ok none else .error ()
    | some .jnull => .ok none
    | none => .ok none
  | _ => .error ()

/-- The JSON inspection in the app-URL branch (src/utils.py lines 273-280):
`if transcript_data and 'transcript' in transcript_data: ...`.  `.ok none`
is a fall-through (the branch returns nothing), `.error` a raised
exception (caught only by the outer handler, which returns `''`). -/
def extractThird : JVal → Except Unit (Option PyStr)
  | .jnull => .ok none
  | .jstr s =>
    if s.isEmpty then .ok none
    else if pyContains (("transcript").toList) s then .error ()
    else .ok none
  | .jlist es =>
    if es.isEmpty then .ok none
    else if jlistHasStr (("transcript").toList) es then .error ()
    else .ok none
  | .jdict fs =>
    if fs.isEmpty then .ok none
    else
      match jLookup fs (("transcript").toList) with
      | some w => textFromTranscriptVal w
      | none => .ok none

/-- The JSON inspection in the raw-URL branch (src/utils.py lines 292-303):
`if 'transcript' in transcript_data: ... elif 'text' in transcript_data:
...`.  In this branch a raised exception is caught by the inner handler
and, like a fall-through, ends at the final `return ''`. -/
def extractSecond : JVal → Except Unit (Option PyStr)
  | .jnull => .error ()
  | .jstr s =>
    if pyContains (("transcript").toList) s then .error ()
    else if pyContains (("text").toList) s then .error ()
    else .ok none
  | .jlist es =>
    if jlistHasStr (("transcript").toList) es then .error ()
    else if jlistHasStr (("text").toList) es then .error ()
    else .ok none
  | .jdict fs =>
    match jLookup fs (("transcript").toList) with
    | some w => textFromTranscriptVal w
    | none =>
      match jLookup fs (("text").toList) with
      | some (.jstr t) => .ok (some (format_transcript_text t))
      | some _ => .error ()
      | none => .ok none

/-- The raw-URL fetch block (src/utils.py lines 283-314): attach the API
key header iff the URL contains `api.quartr.com`, fetch, on 200 try the
JSON paths and fall back to the raw text; every failure path degrades to
the empty string. -/
def fetchRawUrl (fetch : PyStr → Bool → FetchResult) (rawUrl : PyStr)
    (log : List Request) : PyStr × List Request :=
  let withKey := pyContains (("api.quartr.com").toList) rawUrl
  let log' := log ++ [(rawUrl, withKey)]
  match fetch rawUrl withKey with
  | .exc => ([], log')
  | .resp st body =>
    if st = 200 then
      match body.json with
      | some v =>
        match extractSecond v with
        | .ok (some t) => (t, log')
        | _ => ([], log')
      | none =>
        if body.raw.isEmpty then ([], log')
        else (format_transcript_text body.raw, log')
    else ([], log')

/-- The API endpoint derived from an app transcript page URL
(src/utils.py line 269). -/
def derivedDocUrl (docId : PyStr) : PyStr :=
  ("https://api.quartr.com/public/v1/transcripts/document/").toList ++ docId

/-- The fetch of the derived endpoint in the app-URL branch (src/utils.py
lines 270-280), always with the `X-Api-Key` header; when it yields no text
(non-200, or JSON without a usable text field) control falls through to
the raw-URL block (lines 283-314) with `raw_transcript_url` already set to
the same derived URL, so the URL is fetched a second time there; a raised
exception instead reaches the outer handler, which returns `''`. -/
def thirdFetch (fetch : PyStr → Bool → FetchResult) (url : PyStr) :
    PyStr × List Request :=
  match fetch url true with
  | .exc => ([], [(url, true)])
  | .resp st body =>
    if st = 200 then
      match body.json with
      | none => ([], [(url, true)])
      | some v =>
        match extractThird v with
        | .error _ => ([], [(url, true)])
        | .ok (some t) => (t, [(url, true)])
        | .ok none => fetchRawUrl fetch url [(url, true)]
    else fetchRawUrl fetch url [(url, true)]

/-- `TranscriptProcessor.process_transcript` (src/utils.py lines 252-320)
over the fetch oracle.  Returns the produced text (empty string = the
degraded result) together with the list of requests issued, in order. -/
def process_transcript (fetch : PyStr → Bool → FetchResult)
    (transcript_url : PyStr) (transcripts : Transcripts) :
    PyStr × List Request :=
  match selectRawUrl transcripts with
  | Except.error _ => ([], [])
  | Except.ok (some u) => fetchRawUrl fetch u []
  | Except.ok none =>
    if !transcript_url.isEmpty &&
        pyContains (("app.quartr.com").toList) transcript_url then
      let segs := pySplitChar '/' transcript_url
      if 2 ≤ segs.length then
        let docId := segs.getD (segs.length - 2) []
        if pyIsDigit docId then thirdFetch fetch (derivedDocUrl docId)
        else ([], [])
      else ([], [])
    else ([], [])

/-- The Quartr API base URL (src/utils.py line 169). -/
def quartrBase : PyStr := ("https://api.quartr.com/public/v1").toList

/-- URL of `get_company_events` (line 174; the query parameters
`limit=10&page=1` and the optional `type` do not affect the behaviour
modelled here). -/
def eventsUrl (company_id : PyStr) : PyStr :=
  quartrBase ++ ("/companies/").toList ++ company_id ++
    ("/earlier-events").toList

/-- URL of `get_company_info` (line 221). -/
def companyUrl (company_id : PyStr) : PyStr :=
  quartrBase ++ ("/companies/").toList ++ company_id

/-- `QuartrAPI.get_company_events` (src/utils.py lines 172-205): on 200
returns `{'events': data.get('data', [])}`, otherwise (non-200, transport
error, JSON failure) the empty dict. -/
def get_company_events (fetch : PyStr → Bool → FetchResult)
    (company_id : PyStr) : JVal :=
  match fetch (eventsUrl company_id) true with
  | .exc => .jdict []
  | .resp st body =>
    if st = 200 then
      match body.json with
      | some (.jdict fs) =>
        .jdict [((("events").toList),
          (jLookup fs (("data").toList)).getD (.jlist []))]
      | _ => .jdict []
    else .jdict []

/-- `QuartrAPI.get_company_info` (src/utils.py lines 219-235): the parsed
JSON on 200, otherwise the empty dict. -/
def get_company_info (fetch : PyStr → Bool → FetchResult)
    (company_id : PyStr) : JVal :=
  match fetch (companyUrl company_id) true with
  | .exc => .jdict []
  | .resp st body =>
    if st = 200 then
      match body.json with
      | some v => v
      | none => .jdict []
    else .jdict []

/-- `QuartrAPI.get_document` (src/utils.py lines 237-248): fetched with no
headers; the raw bytes on 200, `None` otherwise. -/
def get_document (fetch : PyStr → Bool → FetchResult)
    (doc_url : PyStr) : Option PyStr :=
  match fetch doc_url false with
  | .exc => none
  | .resp st body => if st = 200 then some body.raw else none

/-- A fetch outcome the source treats as failure: a transport exception or
a status other than 200. -/
def fetchFails : FetchResult → Prop
  | .exc => True
  | .resp st _ => st ≠ 200

theorem fetchRawUrl_fails_fst (fetch : PyStr → Bool → FetchResult)
    (u : PyStr) (log : List Request)
    (h : fetchFails (fetch u (pyContains (("api.quartr.com").toList) u))) :
    (fetchRawUrl fetch u log).1 = [] := by
  simp only [fetchRawUrl]
  cases hf : fetch u (pyContains (("api.quartr.com").toList) u) with
  | exc => rfl
  | resp st body =>
    rw [hf] at h
    dsimp only
    rw [if_neg h]

theorem fetchRawUrl_log (fetch : PyStr → Bool → FetchResult)
    (u : PyStr) (log : List Request) :
    (fetchRawUrl fetch u log).2
      = log ++ [(u, pyContains (("api.quartr.com").toList) u)] := by
  simp only [fetchRawUrl]
  cases fetch u (pyContains (("api.quartr.com").toList) u) with
  | exc => rfl
  | resp st body =>
    dsimp only
    by_cases h : st = 200
    · rw [if_pos h]
      cases body.json with
      | none =>
        dsimp only
        by_cases hr : body.raw.isEmpty = true <;> simp [hr]
      | some v =>
        dsimp only
        cases extractSecond v with
        | error e => rfl
        | ok o => cases o <;> rfl
    · rw [if_neg h]

theorem thirdFetch_log (fetch : PyStr → Bool → FetchResult) (url : PyStr) :
    (thirdFetch fetch url).2 = [(url, true)] ∨
    (thirdFetch fetch url).2
      = [(url, true)] ++ [(url, pyContains (("api.quartr.com").toList) url)] := by
  simp only [thirdFetch]
  cases fetch url true with
  | exc => exact Or.inl rfl
  | resp st body =>
    dsimp only
    by_cases h : st = 200
    · rw [if_pos h]
      cases body.json with
      | none => exact Or.inl rfl
      | some v =>
        dsimp only
        cases extractThird v with
        | error e => exact Or.inl rfl
        | ok o =>
          cases o with
          | none => exact Or.inr (fetchRawUrl_log _ _ _)
          | some t => exact Or.inl rfl
    · rw [if_neg h]
      exact Or.inr (fetchRawUrl_log _ _ _)

theorem thirdFetch_log_head (fetch : PyStr → Bool → FetchResult) (url : PyStr) :
    (thirdFetch fetch url).2.head? = some (url, true) := by
  rcases thirdFetch_log fetch url with h | h <;> rw [h] <;> rfl

theorem thirdFetch_fails_fst (fetch : PyStr → Bool → FetchResult) (url : PyStr)
    (h1 : fetchFails (fetch url true))
    (h2 : fetchFails (fetch url (pyContains (("api.quartr.com").toList) url))) :
    (thirdFetch fetch url).1 = [] := by
  simp only [thirdFetch]
  cases hf : fetch url true with
  | exc => rfl
  | resp st body =>
    rw [hf] at h1
    dsimp only
    rw [if_neg h1]
    exact fetchRawUrl_fails_fst fetch _ _ h2

theorem pyContains_nil_pat (l : PyStr) : pyContains [] l = true := by
  cases l <;> rfl

theorem pyContains_append_right {pat : PyStr} (a b : PyStr)
    (h : pyContains pat a = true) : pyContains pat (a ++ b) = true := by
  induction a with
  | nil =>
    have hpat : pat = [] := by
      simpa [pyContains, List.isEmpty_iff] using h
    subst hpat
    exact pyContains_nil_pat b
  | cons c cs IH =>
    simp only [pyContains, Bool.or_eq_true] at h
    rcases h with hpre | hrest
    · have h1 : pat <+: c :: cs := List.isPrefixOf_iff_prefix.mp hpre
      have h2 : pat <+: (c :: cs) ++ b := h1.trans (List.prefix_append _ _)
      simp only [List.cons_append, pyContains, Bool.or_eq_true]
      have h3 := List.isPrefixOf_iff_prefix.mpr (by simpa using h2)
      exact Or.inl h3
    · simp only [List.cons_append, pyContains, Bool.or_eq_true]
      exact Or.inr (IH hrest)

theorem derived_contains_api (docId : PyStr) :
    pyContains (("api.quartr.com").toList) (derivedDocUrl docId) = true := by
  apply pyContains_append_right
  decide

/-- C5: every fetch operation of the module degrades a non-200 response or
a transport exception to its caller's empty result and raises nothing:
`get_company_events` and `get_company_info` return `{}`, `get_document`
returns `None`, and `process_transcript` (whose embedding is total, hence
exception-free) returns the empty string whenever every fetch fails. -/
theorem c5_non200_degrades :
    (∀ fetch company_id, fetchFails (fetch (eventsUrl company_id) true) →
      get_company_events fetch company_id = .jdict []) ∧
    (∀ fetch company_id, fetchFails (fetch (companyUrl company_id) true) →
      get_company_info fetch company_id = .jdict []) ∧
    (∀ fetch doc_url, fetchFails (fetch doc_url false) →
      get_document fetch doc_url = none) ∧
    (∀ fetch transcript_url transcripts,
      (∀ u k, fetchFails (fetch u k)) →
      (process_transcript fetch transcript_url transcripts).1 = []) := by
  refine ⟨?_, ?_, ?_, ?_⟩
  · intro fetch cid h
    simp only [get_company_events]
    cases hf : fetch (eventsUrl cid) true with
    | exc => rfl
    | resp st body =>
      rw [hf] at h
      dsimp only
      rw [if_neg h]
  · intro fetch cid h
    simp only [get_company_info]
    cases hf : fetch (companyUrl cid) true with
    | exc => rfl
    | resp st body =>
      rw [hf] at h
      dsimp only
      rw [if_neg h]
  · intro fetch durl h
    simp only [get_document]
    cases hf : fetch durl false with
    | exc => rfl
    | resp st body =>
      rw [hf] at h
      dsimp only
      rw [if_neg h]
  · intro fetch turl ts hall
    cases hsel : selectRawUrl ts with
    | error e => simp [process_transcript, hsel]
    | ok o =>
      cases o with
      | some u0 =>
        simp only [process_transcript, hsel]
        exact fetchRawUrl_fails_fst fetch _ _ (hall _ _)
      | none =>
        simp only [process_transcript, hsel]
        by_cases h1 : (!turl.isEmpty &&
            pyContains (("app.quartr.com").toList) turl) = true
        · rw [if_pos h1]
          by_cases h2 : 2 ≤ (pySplitChar '/' turl).length
          · rw [if_pos h2]
            by_cases h3 : pyIsDigit ((pySplitChar '/' turl).getD
                ((pySplitChar '/' turl).length - 2) []) = true
            · rw [if_pos h3]
              exact thirdFetch_fails_fst fetch _ (hall _ _) (hall _ _)
            · rw [if_neg h3]
          · rw [if_neg h2]
        · rw [if_neg h1]

theorem c5_non200_degrades_witness :
    get_company_events (fun _ _ => .resp 404 ⟨[], none⟩) (("12").toList)
      = .jdict [] ∧
    get_company_info (fun _ _ => .resp 404 ⟨[], none⟩) (("12").toList)
      = .jdict [] ∧
    get_document (fun _ _ => .resp 404 ⟨[], none⟩)
      (("https://cdn.example/doc.pdf").toList) = none ∧
    (process_transcript (fun _ _ => .resp 404 ⟨[], none⟩) []
      ⟨some (("https://files.example/t.json").toList), none⟩).1 = [] :=
  ⟨c5_non200_degrades.1 _ _ (by show (404 : Nat) ≠ 200; decide),
   c5_non200_degrades.2.1 _ _ (by show (404 : Nat) ≠ 200; decide),
   c5_non200_degrades.2.2.1 _ _ (by show (404 : Nat) ≠ 200; decide),
   c5_non200_degrades.2.2.2 _ _ _
     (fun _ _ => by show (404 : Nat) ≠ 200; decide)⟩

/-- C8: in `process_transcript`, a request carries the `X-Api-Key` header
iff its target URL contains `api.quartr.com`; any other URL is fetched
with no credential header. -/
theorem c8_api_key_iff_api_host :
    ∀ fetch transcript_url ts u k,
      (u, k) ∈ (process_transcript fetch transcript_url ts).2 →
      (k = true ↔ pyContains (("api.quartr.com").toList) u = true) := by
  intro fetch turl ts u k hmem
  have hraw : ∀ u0 log, (u, k) ∈ (fetchRawUrl fetch u0 log).2 →
      (u, k) ∈ log ∨
        (u = u0 ∧ k = pyContains (("api.quartr.com").toList) u0) := by
    intro u0 log hm
    rw [fetchRawUrl_log] at hm
    rcases List.mem_append.mp hm with h | h
    · exact Or.inl h
    · simp only [List.mem_singleton, Prod.mk.injEq] at h
      exact Or.inr h
  cases hsel : selectRawUrl ts with
  | error e =>
    simp only [process_transcript, hsel] at hmem
    simp at hmem
  | ok o =>
   cases o with
   | none =>
    simp only [process_transcript, hsel] at hmem
    by_cases h1 : (!turl.isEmpty &&
        pyContains (("app.quartr.com").toList) turl) = true
    case neg => rw [if_neg h1] at hmem; simp at hmem
    rw [if_pos h1] at hmem
    by_cases h2 : 2 ≤ (pySplitChar '/' turl).length
    case neg => rw [if_neg h2] at hmem; simp at hmem
    rw [if_pos h2] at hmem
    by_cases h3 : pyIsDigit ((pySplitChar '/' turl).getD
        ((pySplitChar '/' turl).length - 2) []) = true
    case neg => rw [if_neg h3] at hmem; simp at hmem
    rw [if_pos h3] at hmem
    set d := (pySplitChar '/' turl).getD ((pySplitChar '/' turl).length - 2) []
      with hd
    have hsing : (u, k) ∈ ([(derivedDocUrl d, true)] : List Request) →
        (k = true ↔ pyContains (("api.quartr.com").toList) u = true) := by
      intro hm
      simp only [List.mem_singleton, Prod.mk.injEq] at hm
      obtain ⟨hm1, hm2⟩ := hm
      subst hm1; subst hm2
      exact ⟨fun _ => derived_contains_api d, fun _ => rfl⟩
    rcases thirdFetch_log fetch (derivedDocUrl d) with h | h
    · rw [h] at hmem
      exact hsing hmem
    · rw [h] at hmem
      rcases List.mem_append.mp hmem with hm | hm
      · exact hsing hm
      · simp only [List.mem_singleton, Prod.mk.injEq] at hm
        obtain ⟨hm1, hm2⟩ := hm
        subst hm1; subst hm2
        exact Iff.rfl
   | some u0 =>
    simp only [process_transcript, hsel] at hmem
    rcases hraw _ _ hmem with h | ⟨hm1, hm2⟩
    · simp at h
    · subst hm1; subst hm2; exact Iff.rfl

theorem c8_api_key_iff_api_host_witness :
    ((("https://files.example/t.json").toList, false) ∈
      (process_transcript (fun _ _ => .resp 404 ⟨[], none⟩) []
        ⟨some (("https://files.example/t.json").toList), none⟩).2) ∧
    (false = true ↔ pyContains (("api.quartr.com").toList)
      (("https://files.example/t.json").toList) = true) :=
  ⟨by decide,
    c8_api_key_iff_api_host (fun _ _ => .resp 404 ⟨[], none⟩) []
      ⟨some (("https://files.example/t.json").toList), none⟩
      (("https://files.example/t.json").toList) false (by decide)⟩

/-- C3 (counterexample): the original claim fails at the input
`transcripts = {'liveTranscripts': None}`: the dict has neither URL field
and the page URL satisfies the app-URL/numeric-segment conditions, yet
line 261's membership test on the stored `None` raises `TypeError`, the
outer handler at line 318 returns `''`, and nothing — in particular not
the derived API endpoint — is ever fetched (the request log is empty),
even against an oracle that would answer every request with 200. -/
theorem c3_priority_counterexample :
    process_transcript (fun _ _ => FetchResult.resp 200 ⟨[], none⟩)
        (("https://app.quartr.com/link/4567/transcript").toList)
        ⟨none, some LiveVal.lnull⟩
      = ([], []) := by
  decide

/-- C3 (amended): `process_transcript` tries transcript sources in strict
priority order, stopping at the first success: (1) a truthy
`transcriptUrl` is the first (and before any fallback the only) URL
fetched; (2) failing that, a truthy nested `finishedLiveTranscriptUrl`;
(3) failing both — provided the `liveTranscripts` field, when present, is
an object rather than a null (a present-but-`None` `liveTranscripts`
instead raises `TypeError` at the membership test and resolution aborts
with `''` and no fetch) — when the app transcript page URL contains
`app.quartr.com` and its second-to-last path segment is numeric,
resolution reaches and fetches the derived
`https://api.quartr.com/public/v1/transcripts/document/{id}` endpoint
(with the API key header). -/
theorem c3_priority_order :
    ∀ (fetch : PyStr → Bool → FetchResult) (transcript_url : PyStr)
      (ts : Transcripts),
      (∀ u, ts.transcriptUrl = some u → u ≠ [] →
        (process_transcript fetch transcript_url ts).2.head?
          = some (u, pyContains (("api.quartr.com").toList) u)) ∧
      (∀ u, optTruthy ts.transcriptUrl = false →
        finishedLiveUrl ts = some u → u ≠ [] →
        (process_transcript fetch transcript_url ts).2.head?
          = some (u, pyContains (("api.quartr.com").toList) u)) ∧
      (optTruthy ts.transcriptUrl = false →
        optTruthy (finishedLiveUrl ts) = false →
        ts.liveTranscripts ≠ some LiveVal.lnull →
        transcript_url ≠ [] →
        pyContains (("app.quartr.com").toList) transcript_url = true →
        2 ≤ (pySplitChar '/' transcript_url).length →
        pyIsDigit ((pySplitChar '/' transcript_url).getD
          ((pySplitChar '/' transcript_url).length - 2) []) = true →
        (process_transcript fetch transcript_url ts).2.head?
          = some (derivedDocUrl ((pySplitChar '/' transcript_url).getD
              ((pySplitChar '/' transcript_url).length - 2) []), true)) := by
  intro fetch turl ts
  refine ⟨?_, ?_, ?_⟩
  · intro u hu hne
    have hemp : u.isEmpty = false := by
      cases u with
      | nil => exact absurd rfl hne
      | cons c cs => rfl
    have hsel : selectRawUrl ts = Except.ok (some u) := by
      simp [selectRawUrl, hu, optTruthy, hemp]
    simp only [process_transcript, hsel]
    rw [fetchRawUrl_log]
    rfl
  · intro u hto hlu hne
    have hemp : u.isEmpty = false := by
      cases u with
      | nil => exact absurd rfl hne
      | cons c cs => rfl
    obtain ⟨lt, hlt, hfin⟩ : ∃ lt,
        ts.liveTranscripts = some (LiveVal.lobj lt) ∧
        lt.finishedLiveTranscriptUrl = some u := by
      cases hl : ts.liveTranscripts with
      | none =>
        simp only [finishedLiveUrl, hl] at hlu
        exact absurd hlu (by simp)
      | some lv =>
        cases lv with
        | lnull =>
          simp only [finishedLiveUrl, hl] at hlu
          exact absurd hlu (by simp)
        | lobj lt =>
          simp only [finishedLiveUrl, hl] at hlu
          exact ⟨lt, rfl, hlu⟩
    have hsel : selectRawUrl ts = Except.ok (some u) := by
      unfold selectRawUrl
      rw [hto, hlt]
      simp [optTruthy, hfin, hemp]
    simp only [process_transcript, hsel]
    rw [fetchRawUrl_log]
    rfl
  · intro hto hlive hnn hne happ hlen hdig
    have hsel : selectRawUrl ts = Except.ok none := by
      unfold selectRawUrl
      rw [hto]
      cases hl : ts.liveTranscripts with
      | none => rfl
      | some lv =>
        cases lv with
        | lnull => exact absurd hl hnn
        | lobj lt =>
          have hfin : optTruthy lt.finishedLiveTranscriptUrl = false := by
            have h := hlive
            simp only [finishedLiveUrl, hl] at h
            exact h
          simp [hfin]
    have hemp : turl.isEmpty = false := by
      cases turl with
      | nil => exact absurd rfl hne
      | cons c cs => rfl
    simp only [process_transcript, hsel]
    have h1 : (!turl.isEmpty &&
        pyContains (("app.quartr.com").toList) turl) = true := by
      rw [hemp, happ]
      rfl
    rw [if_pos h1, if_pos hlen, if_pos hdig]
    exact thirdFetch_log_head fetch _

theorem c3_priority_order_witness :
    (process_transcript (fun _ _ => FetchResult.resp 404 ⟨[], none⟩)
        (("https://app.quartr.com/link/4567/transcript").toList)
        ⟨none, none⟩).2.head?
      = some (derivedDocUrl (("4567").toList), true) :=
  (c3_priority_order (fun _ _ => FetchResult.resp 404 ⟨[], none⟩)
      (("https://app.quartr.com/link/4567/transcript").toList)
      ⟨none, none⟩).2.2
    (by decide) (by decide) (by simp) (by decide) (by decide) (by decide)
    (by decide)

/-! ## Lemmas towards idempotence of the formatter (C7) -/

theorem pySplitOnP_append_sep {P : Char → Bool} {c : Char} (h : P c = true)
    (a b : PyStr) :
    pySplitOnP P (a ++ c :: b) = pySplitOnP P a ++ pySplitOnP P b := by
  induction a with
  | nil =>
    rw [List.nil_append, pySplitOnP_cons_pos h]
    rfl
  | cons d a' IH =>
    by_cases hd : P d = true
    · rw [List.cons_append, pySplitOnP_cons_pos hd, pySplitOnP_cons_pos hd, IH]
      rfl
    · rw [Bool.not_eq_true] at hd
      obtain ⟨q, qs, hq, hcons⟩ := pySplitOnP_cons_neg hd (a' ++ c :: b)
      obtain ⟨q', qs', hq', hcons'⟩ := pySplitOnP_cons_neg hd a'
      rw [List.cons_append, hcons, hcons']
      rw [IH, hq'] at hq
      rw [List.cons_append] at hq
      injection hq with h1 h2
      subst h1
      subst h2
      rfl

theorem pySplitOnP_no_sep {P : Char → Bool} :
    ∀ l : PyStr, (∀ c ∈ l, P c = false) → pySplitOnP P l = [l] := by
  intro l
  induction l with
  | nil => intro _; rfl
  | cons c rest IH =>
    intro h
    obtain ⟨q, qs, hq, hcons⟩ :=
      pySplitOnP_cons_neg (h c (List.mem_cons_self c rest)) rest
    rw [hcons]
    rw [IH (fun d hd => h d (List.mem_cons_of_mem c hd))] at hq
    injection hq with h1 h2
    subst h1
    subst h2
    rfl

theorem pySplitOnP_head_pre {P : Char → Bool} :
    ∀ l : PyStr, (pySplitOnP P l).headD [] <+: l := by
  intro l
  induction l with
  | nil => exact ⟨[], rfl⟩
  | cons c rest IH =>
    by_cases hc : P c = true
    · rw [pySplitOnP_cons_pos hc]
      exact ⟨c :: rest, rfl⟩
    · rw [Bool.not_eq_true] at hc
      obtain ⟨q, qs, hq, hcons⟩ := pySplitOnP_cons_neg hc rest
      rw [hcons]
      rw [hq] at IH
      obtain ⟨t, ht⟩ := IH
      rw [List.headD_cons] at ht
      exact ⟨t, by
        show (c :: q) ++ t = c :: rest
        rw [List.cons_append, ht]⟩

theorem pySplitOnP_piece_within {P : Char → Bool} :
    ∀ l : PyStr, ∀ p ∈ pySplitOnP P l, p <:+: l := by
  intro l
  induction l with
  | nil =>
    intro p hp
    simp only [pySplitOnP, List.mem_singleton] at hp
    subst hp
    exact ⟨[], [], rfl⟩
  | cons c rest IH =>
    intro p hp
    by_cases hc : P c = true
    · rw [pySplitOnP_cons_pos hc] at hp
      rcases List.mem_cons.mp hp with h | h
      · subst h
        exact ⟨[], c :: rest, rfl⟩
      · obtain ⟨s, t, hst⟩ := IH p h
        exact ⟨c :: s, t, by rw [← hst]; rfl⟩
    · rw [Bool.not_eq_true] at hc
      obtain ⟨q, qs, hq, hcons⟩ := pySplitOnP_cons_neg hc rest
      rw [hcons] at hp
      rcases List.mem_cons.mp hp with h | h
      · subst h
        have hpre : q <+: rest := by
          have := pySplitOnP_head_pre (P := P) rest
          rw [hq] at this
          exact this
        obtain ⟨t, ht⟩ := hpre
        exact ⟨[], t, by rw [List.nil_append, List.cons_append, ht]⟩
      · obtain ⟨s, t, hst⟩ := IH p (hq ▸ List.mem_cons_of_mem q h)
        exact ⟨c :: s, t, by rw [← hst]; rfl⟩

theorem pyTokens_append_space {c : Char} (h : pyIsSpace c = true)
    (a b : PyStr) : pyTokens (a ++ c :: b) = pyTokens a ++ pyTokens b := by
  rw [pyTokens, pySplitOnP_append_sep h, List.filter_append]
  rfl

theorem pyTokens_cons_space {c : Char} (h : pyIsSpace c = true) (z : PyStr) :
    pyTokens (c :: z) = pyTokens z := by
  rw [pyTokens, pySplitOnP_cons_pos h]
  rfl

theorem pyTokens_single {w : PyStr} (hne : w ≠ [])
    (h : ∀ c ∈ w, pyIsSpace c = false) : pyTokens w = [w] := by
  rw [pyTokens, pySplitOnP_no_sep w h]
  simp [hne]

theorem pyJoin_cons_cons (sep x y : PyStr) (ys : List PyStr) :
    pyJoin sep (x :: y :: ys) = x ++ sep ++ pyJoin sep (y :: ys) := rfl

theorem pyTokens_join {W : List PyStr}
    (h : ∀ w ∈ W, w ≠ [] ∧ ∀ c ∈ w, pyIsSpace c = false) :
    pyTokens (pyJoin [' '] W) = W := by
  induction W with
  | nil => rfl
  | cons w ws IH =>
    cases ws with
    | nil =>
      exact pyTokens_single (h w (List.mem_cons_self w [])).1
        (h w (List.mem_cons_self w [])).2
    | cons w' ws' =>
      have hj : pyJoin [' '] (w :: w' :: ws')
          = w ++ ' ' :: pyJoin [' '] (w' :: ws') := by
        rw [pyJoin_cons_cons, List.append_assoc]
        rfl
      rw [hj, pyTokens_append_space (by decide : pyIsSpace ' ' = true) w _,
        pyTokens_single (h w (List.mem_cons_self w _)).1
          (h w (List.mem_cons_self w _)).2,
        IH (fun u hu => h u (List.mem_cons_of_mem w hu))]
      rfl

theorem pyJoin_append {sep : PyStr} {A B : List PyStr} (hA : A ≠ [])
    (hB : B ≠ []) :
    pyJoin sep (A ++ B) = pyJoin sep A ++ sep ++ pyJoin sep B := by
  induction A with
  | nil => exact absurd rfl hA
  | cons x A' IH =>
    cases A' with
    | nil =>
      cases B with
      | nil => exact absurd rfl hB
      | cons y B' => rfl
    | cons x' A'' =>
      have h1 : (x :: x' :: A'') ++ B = x :: ((x' :: A'') ++ B) := rfl
      rw [h1]
      have h2 : ((x' :: A'') ++ B) = (x' :: (A'' ++ B)) := rfl
      have h3 : pyJoin sep (x :: x' :: (A'' ++ B))
          = x ++ sep ++ pyJoin sep (x' :: (A'' ++ B)) := rfl
      rw [h2, h3, ← h2, IH (List.cons_ne_nil x' A''), pyJoin_cons_cons]
      simp [List.append_assoc]

theorem head?_append_of_ne_nil {u v : PyStr} (h : u ≠ []) :
    (u ++ v).head? = u.head? := by
  cases u with
  | nil => exact absurd rfl h
  | cons c cs => rfl

theorem pyJoin_head {w : PyStr} {ws : List PyStr} (hw : w ≠ []) (sep : PyStr) :
    (pyJoin sep (w :: ws)).head? = w.head? := by
  cases ws with
  | nil => rfl
  | cons w' ws' =>
    rw [pyJoin_cons_cons, List.append_assoc]
    exact head?_append_of_ne_nil hw

/-- Extend the last element of a list of words (used to attach the final
period of a sentence to its last word). -/
def extendLast (t : PyStr) : List PyStr → List PyStr
  | [] => [t]
  | [w] => [w ++ t]
  | w :: ws => w :: extendLast t ws

theorem extendLast_cons_shape (t w : PyStr) (ws : List PyStr) :
    ∃ z zs, extendLast t (w :: ws) = z :: zs := by
  cases ws with
  | nil => exact ⟨w ++ t, [], rfl⟩
  | cons w' ws' => exact ⟨w, extendLast t (w' :: ws'), rfl⟩

theorem pyJoin_extendLast (sep t : PyStr) :
    ∀ W : List PyStr, W ≠ [] →
      pyJoin sep W ++ t = pyJoin sep (extendLast t W) := by
  intro W
  induction W with
  | nil => intro h; exact absurd rfl h
  | cons w ws IH =>
    intro _
    cases ws with
    | nil => rfl
    | cons w' ws' =>
      have h2 : extendLast t (w :: w' :: ws') = w :: extendLast t (w' :: ws') :=
        rfl
      obtain ⟨z, zs, hz⟩ := extendLast_cons_shape t w' ws'
      rw [pyJoin_cons_cons, h2, hz, pyJoin_cons_cons, ← hz,
        ← IH (List.cons_ne_nil w' ws')]
      simp [List.append_assoc]

theorem extendLast_words {W : List PyStr}
    (hW : ∀ w ∈ W, w ≠ [] ∧ ∀ c ∈ w, pyIsSpace c = false) :
    ∀ w' ∈ extendLast ['.'] W, w' ≠ [] ∧ ∀ c ∈ w', pyIsSpace c = false := by
  induction W with
  | nil =>
    intro w' hw'
    simp only [extendLast, List.mem_singleton] at hw'
    subst hw'
    refine ⟨List.cons_ne_nil _ _, ?_⟩
    intro c hc
    simp only [List.mem_singleton] at hc
    subst hc
    rfl
  | cons w ws IH =>
    intro w' hw'
    cases ws with
    | nil =>
      simp only [extendLast, List.mem_singleton] at hw'
      subst hw'
      obtain ⟨h1, h2⟩ := hW w (List.mem_cons_self w [])
      refine ⟨by simp [h1], ?_⟩
      intro c hc
      rcases List.mem_append.mp hc with h | h
      · exact h2 c h
      · simp only [List.mem_singleton] at h
        subst h
        rfl
    | cons v vs =>
      have hsh : extendLast ['.'] (w :: v :: vs)
          = w :: extendLast ['.'] (v :: vs) := rfl
      rw [hsh] at hw'
      rcases List.mem_cons.mp hw' with h | h
      · subst h
        exact hW w' (List.mem_cons_self w' _)
      · exact IH (fun u hu => hW u (List.mem_cons_of_mem w hu)) w' h

theorem extendLast_ne_nil (t : PyStr) (W : List PyStr) :
    extendLast t W ≠ [] := by
  cases W with
  | nil => exact List.cons_ne_nil _ _
  | cons w ws =>
    obtain ⟨z, zs, hz⟩ := extendLast_cons_shape t w ws
    rw [hz]
    exact List.cons_ne_nil _ _

theorem pyJoin_flatten {sep : PyStr} :
    ∀ {L : List (List PyStr)}, (∀ A ∈ L, A ≠ []) →
      pyJoin sep L.flatten = pyJoin sep (L.map (pyJoin sep)) := by
  intro L
  induction L with
  | nil => intro _; rfl
  | cons A L' IH =>
    intro h
    cases L' with
    | nil => simp [pyJoin]
    | cons B L'' =>
      have hA : A ≠ [] := h A (List.mem_cons_self A _)
      have hB : B ≠ [] := h B (List.mem_cons_of_mem A (List.mem_cons_self B _))
      have hfl : (B :: L'').flatten ≠ [] := by
        rw [List.flatten_ne_nil_iff]
        exact ⟨B, List.mem_cons_self B _, hB⟩
      rw [List.flatten_cons, pyJoin_append hA hfl,
        IH (fun X hX => h X (List.mem_cons_of_mem A hX))]
      simp only [List.map_cons]
      rw [pyJoin_cons_cons]

/-- No occurrence of the adjacent character pair `a b`. -/
def noSeq (a b : Char) : PyStr → Prop
  | [] => True
  | [_] => True
  | c :: d :: r => ¬(c = a ∧ d = b) ∧ noSeq a b (d :: r)

theorem noSeq_cons {a b c : Char} {z : PyStr}
    (hhd : ∀ hd, z.head? = some hd → ¬(c = a ∧ hd = b))
    (hz : noSeq a b z) : noSeq a b (c :: z) := by
  cases z with
  | nil => trivial
  | cons d r => exact ⟨hhd d rfl, hz⟩

theorem noSeq_tail {a b c : Char} {z : PyStr} (h : noSeq a b (c :: z)) :
    noSeq a b z := by
  cases z with
  | nil => trivial
  | cons d r => exact h.2

theorem noSeq_pair {a b c d : Char} {r : PyStr} (h : noSeq a b (c :: d :: r)) :
    ¬(c = a ∧ d = b) := h.1

theorem noSeq_append_left {a b : Char} :
    ∀ {u v : PyStr}, noSeq a b (u ++ v) → noSeq a b u := by
  intro u
  induction u with
  | nil => intro v _; trivial
  | cons c u' IH =>
    intro v h
    cases u' with
    | nil => trivial
    | cons d u'' =>
      have h' : noSeq a b (c :: d :: (u'' ++ v)) := h
      exact ⟨h'.1, IH h'.2⟩

theorem noSeq_append_right {a b : Char} :
    ∀ {u v : PyStr}, noSeq a b (u ++ v) → noSeq a b v := by
  intro u
  induction u with
  | nil => intro v h; exact h
  | cons c u' IH =>
    intro v h
    exact IH (noSeq_tail h)

theorem noSeq_within {a b : Char} {x l : PyStr} (hx : x <:+: l)
    (h : noSeq a b l) : noSeq a b x := by
  obtain ⟨s, t, hst⟩ := hx
  subst hst
  rw [List.append_assoc] at h
  exact noSeq_append_left (noSeq_append_right h)

theorem noSeq_append {a b : Char} :
    ∀ {u v : PyStr}, noSeq a b u → noSeq a b v →
      ¬(u.getLast? = some a ∧ v.head? = some b) → noSeq a b (u ++ v) := by
  intro u
  induction u with
  | nil => intro v _ hv _; exact hv
  | cons c u' IH =>
    intro v hu hv hb
    cases u' with
    | nil =>
      apply noSeq_cons ?_ hv
      intro hd hhd hab
      refine hb ⟨?_, ?_⟩
      · rw [hab.1]; rfl
      · rw [hhd, hab.2]
    | cons d u'' =>
      refine ⟨(noSeq_pair hu), IH (noSeq_tail hu) hv ?_⟩
      rwa [List.getLast?_cons_cons] at hb

theorem noSeq_of_no_first {a b : Char} :
    ∀ {w : PyStr}, (∀ c ∈ w, ¬(c = a)) → noSeq a b w := by
  intro w
  induction w with
  | nil => intro _; trivial
  | cons c w' IH =>
    intro h
    apply noSeq_cons
    · intro hd _ hab
      exact h c (List.mem_cons_self c w') hab.1
    · exact IH (fun d hd => h d (List.mem_cons_of_mem c hd))

theorem mem_of_head?_eq {c : Char} : ∀ {l : PyStr}, l.head? = some c → c ∈ l := by
  intro l h
  cases l with
  | nil => simp at h
  | cons d r =>
    injection h with h'
    subst h'
    exact List.mem_cons_self _ _

theorem mem_of_getLast?_eq {c : Char} {l : PyStr} (h : l.getLast? = some c) :
    c ∈ l := by
  have hm : c ∈ l.reverse := mem_of_head?_eq (by rw [List.head?_reverse]; exact h)
  simpa using hm

theorem mem_within {u l : PyStr} (h : u <:+: l) {c : Char} (hc : c ∈ u) :
    c ∈ l := by
  obtain ⟨s, t, hst⟩ := h
  subst hst
  simp [hc]

theorem pyReplacePair_head (d : Char) (r : PyStr) :
    (pyReplacePair '\\' 'n' ['\n'] (d :: r)).head? = some d ∨
    (pyReplacePair '\\' 'n' ['\n'] (d :: r)).head? = some '\n' := by
  cases r with
  | nil => exact Or.inl rfl
  | cons e r' =>
    by_cases h : d = '\\' ∧ e = 'n'
    · right
      simp only [pyReplacePair, if_pos h]
      rfl
    · left
      simp only [pyReplacePair, if_neg h]
      rfl

theorem noSeq_replacePair (l : PyStr) :
    noSeq '\\' 'n' (pyReplacePair '\\' 'n' ['\n'] l) := by
  have main : ∀ n, ∀ l : PyStr, l.length ≤ n →
      noSeq '\\' 'n' (pyReplacePair '\\' 'n' ['\n'] l) := by
    intro n
    induction n with
    | zero =>
      intro l hl
      have h0 : l = [] := List.length_eq_zero.mp (Nat.le_zero.mp hl)
      subst h0
      trivial
    | succ n IH =>
      intro l hl
      rcases l with _ | ⟨c, _ | ⟨d, r⟩⟩
      · trivial
      · trivial
      · by_cases h : c = '\\' ∧ d = 'n'
        · simp only [pyReplacePair, if_pos h]
          show noSeq '\\' 'n' ('\n' :: pyReplacePair '\\' 'n' ['\n'] r)
          apply noSeq_cons
          · intro hd _ hab
            exact absurd hab.1 (by decide)
          · apply IH
            simp only [List.length_cons] at hl ⊢
            omega
        · simp only [pyReplacePair, if_neg h]
          apply noSeq_cons
          · intro hd hhd hab
            rcases pyReplacePair_head d r with h' | h'
            · rw [h'] at hhd
              injection hhd with he
              exact h ⟨hab.1, by rw [he]; exact hab.2⟩
            · rw [h'] at hhd
              injection hhd with he
              rw [← he] at hab
              exact absurd hab.2 (by decide)
          · apply IH
            simp only [List.length_cons] at hl ⊢
            omega
  exact main l.length l le_rfl

theorem pyReplacePair_id_of_noSeq {a b : Char} {rep : PyStr} :
    ∀ {l : PyStr}, noSeq a b l → pyReplacePair a b rep l = l := by
  intro l
  induction l with
  | nil => intro _; rfl
  | cons c rest IH =>
    intro h
    cases rest with
    | nil => rfl
    | cons d r =>
      simp only [pyReplacePair, if_neg (noSeq_pair h)]
      rw [IH (noSeq_tail h)]

theorem noSeq_space_join {W : List PyStr}
    (hW : ∀ w ∈ W, w ≠ [] ∧ ∀ c ∈ w, pyIsSpace c = false) :
    noSeq ' ' ' ' (pyJoin [' '] W) := by
  induction W with
  | nil => trivial
  | cons w ws IH =>
    have hw := hW w (List.mem_cons_self w ws)
    have hwno : noSeq ' ' ' ' w := by
      apply noSeq_of_no_first
      intro c hc hca
      have hns := hw.2 c hc
      rw [hca] at hns
      exact absurd hns (by decide)
    cases ws with
    | nil => exact hwno
    | cons w' ws' =>
      rw [pyJoin_cons_cons, List.append_assoc]
      have hw' := hW w' (List.mem_cons_of_mem w (List.mem_cons_self w' ws'))
      apply noSeq_append hwno
      · show noSeq ' ' ' ' (' ' :: pyJoin [' '] (w' :: ws'))
        apply noSeq_cons
        · intro hd hhd hab
          rw [pyJoin_head hw'.1] at hhd
          have hmem : hd ∈ w' := mem_of_head?_eq hhd
          have hns := hw'.2 hd hmem
          rw [hab.2] at hns
          exact absurd hns (by decide)
        · exact IH (fun u hu => hW u (List.mem_cons_of_mem w hu))
      · rintro ⟨hl, _⟩
        have hmem : ' ' ∈ w := mem_of_getLast?_eq hl
        have hns := hw.2 ' ' hmem
        exact absurd hns (by decide)

theorem noSeq_bsn_suffix_dot {S : List PyStr}
    (hS : ∀ x ∈ S, noSeq '\\' 'n' x) :
    noSeq '\\' 'n' (pyJoin ((".\n\n").toList) S ++ ['.']) := by
  induction S with
  | nil => trivial
  | cons x rest IH =>
    have hx := hS x (List.mem_cons_self x rest)
    cases rest with
    | nil =>
      apply noSeq_append hx (by trivial)
      rintro ⟨_, h2⟩
      injection h2 with h3
      exact absurd h3 (by decide)
    | cons y rest' =>
      rw [pyJoin_cons_cons, List.append_assoc, List.append_assoc]
      apply noSeq_append hx
      · show noSeq '\\' 'n'
          ('.' :: '\n' :: '\n' ::
            (pyJoin ((".\n\n").toList) (y :: rest') ++ ['.']))
        apply noSeq_cons
        · intro hd _ hab
          exact absurd hab.1 (by decide)
        apply noSeq_cons
        · intro hd _ hab
          exact absurd hab.1 (by decide)
        apply noSeq_cons
        · intro hd _ hab
          exact absurd hab.1 (by decide)
        exact IH (fun u hu => hS u (List.mem_cons_of_mem x hu))
      · rintro ⟨_, h2⟩
        injection h2 with h3
        exact absurd h3 (by decide)

theorem dropWhile_head_false {p : Char → Bool} :
    ∀ {l : PyStr} {c : Char}, (l.dropWhile p).head? = some c → p c = false := by
  intro l
  induction l with
  | nil => intro c h; simp at h
  | cons a as IH =>
    intro c h
    by_cases hp : p a = true
    · rw [List.dropWhile_cons, if_pos hp] at h
      exact IH h
    · rw [List.dropWhile_cons, if_neg hp] at h
      injection h with h'
      rw [← h']
      rw [Bool.not_eq_true] at hp
      exact hp

theorem getLast?_suffix_eq {u l : PyStr} (h : u <:+ l) (hne : u ≠ []) :
    l.getLast? = u.getLast? := by
  obtain ⟨t, ht⟩ := h
  subst ht
  rw [List.getLast?_append, Option.or_of_isSome (List.getLast?_isSome.mpr hne)]

theorem pyStrip_head_false {l : PyStr} {c : Char}
    (h : (pyStrip l).head? = some c) : pyIsSpace c = false := by
  rw [pyStrip, List.head?_reverse] at h
  have hXne : (l.dropWhile pyIsSpace).reverse.dropWhile pyIsSpace ≠ [] := by
    intro h0
    rw [h0] at h
    simp at h
  have hsuf : (l.dropWhile pyIsSpace).reverse.dropWhile pyIsSpace <:+
      (l.dropWhile pyIsSpace).reverse := List.dropWhile_suffix pyIsSpace
  have heq := getLast?_suffix_eq hsuf hXne
  rw [← heq, List.getLast?_reverse] at h
  exact dropWhile_head_false h

theorem pyStrip_getLast_false {l : PyStr} {c : Char}
    (h : (pyStrip l).getLast? = some c) : pyIsSpace c = false := by
  rw [pyStrip, List.getLast?_reverse] at h
  exact dropWhile_head_false h

theorem pyStrip_eq_self {x : PyStr}
    (hh : ∀ c, x.head? = some c → pyIsSpace c = false)
    (hl : ∀ c, x.getLast? = some c → pyIsSpace c = false) :
    pyStrip x = x := by
  have h1 : x.dropWhile pyIsSpace = x := by
    cases x with
    | nil => rfl
    | cons c cs =>
      have hc := hh c rfl
      rw [List.dropWhile_cons, if_neg (by simp [hc])]
  rw [pyStrip, h1]
  have h2 : x.reverse.dropWhile pyIsSpace = x.reverse := by
    cases hx : x.reverse with
    | nil => rfl
    | cons c cs =>
      have hcl : x.getLast? = some c := by
        rw [← List.head?_reverse, hx]
        rfl
      have hc := hl c hcl
      rw [List.dropWhile_cons, if_neg (by simp [hc])]
  rw [h2, List.reverse_reverse]

theorem pyStrip_idem (p : PyStr) : pyStrip (pyStrip p) = pyStrip p :=
  pyStrip_eq_self (fun _ h => pyStrip_head_false h)
    (fun _ h => pyStrip_getLast_false h)

theorem pyStrip_cons_space (z : PyStr) : pyStrip (' ' :: z) = pyStrip z := by
  rw [pyStrip, pyStrip, List.dropWhile_cons, if_pos (by decide)]

theorem pyStrip_within (l : PyStr) : pyStrip l <:+: l := by
  have h1 : l.dropWhile pyIsSpace <:+ l := List.dropWhile_suffix pyIsSpace
  obtain ⟨u, hu⟩ := h1
  have h2 : (l.dropWhile pyIsSpace).reverse.dropWhile pyIsSpace <:+
      (l.dropWhile pyIsSpace).reverse := List.dropWhile_suffix pyIsSpace
  obtain ⟨v, hv⟩ := h2
  refine ⟨u, v.reverse, ?_⟩
  have h3 : ((l.dropWhile pyIsSpace).reverse.dropWhile pyIsSpace).reverse ++
      v.reverse = l.dropWhile pyIsSpace := by
    rw [← List.reverse_append, hv, List.reverse_reverse]
  show u ++ ((l.dropWhile pyIsSpace).reverse.dropWhile pyIsSpace).reverse ++
      v.reverse = l
  rw [List.append_assoc, h3, hu]

/-- A non-empty string whose whitespace is only single interior spaces
(no double spaces, no edge spaces) decomposes as non-empty
whitespace-free words joined by single spaces. -/
theorem norm_decomp :
    ∀ n, ∀ x : PyStr, x.length ≤ n →
      (∀ c ∈ x, pyIsSpace c = true → c = ' ') →
      noSeq ' ' ' ' x →
      (∀ c, x.head? = some c → pyIsSpace c = false) →
      (∀ c, x.getLast? = some c → pyIsSpace c = false) →
      x ≠ [] →
      ∃ W, W ≠ [] ∧
        (∀ w ∈ W, w ≠ [] ∧ ∀ c ∈ w, pyIsSpace c = false ∧ c ∈ x) ∧
        x = pyJoin [' '] W := by
  intro n
  induction n with
  | zero =>
    intro x hlen _ _ _ _ hne
    exact absurd (List.length_eq_zero.mp (Nat.le_zero.mp hlen)) hne
  | succ n IH =>
    intro x hlen hok htwo hhead hlast hne
    have hx : x.takeWhile (fun c => !pyIsSpace c) ++
        x.dropWhile (fun c => !pyIsSpace c) = x :=
      List.takeWhile_append_dropWhile _ _
    have hw1ne : x.takeWhile (fun c => !pyIsSpace c) ≠ [] := by
      cases hx0 : x with
      | nil => exact absurd hx0 hne
      | cons c cs =>
        have hc := hhead c (by rw [hx0]; rfl)
        rw [List.takeWhile_cons, if_pos (by simp [hc])]
        exact List.cons_ne_nil _ _
    have hw1chars : ∀ c ∈ x.takeWhile (fun c => !pyIsSpace c),
        pyIsSpace c = false := by
      intro c hc
      have hcp := List.mem_takeWhile_imp hc
      simpa using hcp
    have hw1mem : ∀ c ∈ x.takeWhile (fun c => !pyIsSpace c), c ∈ x := by
      intro c hc
      rw [← hx]
      exact List.mem_append.mpr (Or.inl hc)
    cases hr0 : x.dropWhile (fun c => !pyIsSpace c) with
    | nil =>
      refine ⟨[x.takeWhile (fun c => !pyIsSpace c)], List.cons_ne_nil _ _,
        ?_, ?_⟩
      · intro w hw
        simp only [List.mem_singleton] at hw
        subst hw
        exact ⟨hw1ne, fun c hc => ⟨hw1chars c hc, hw1mem c hc⟩⟩
      · conv_lhs => rw [← hx]
        rw [hr0, List.append_nil]
        rfl
    | cons d r' =>
      have hd : pyIsSpace d = true := by
        have hh : (x.dropWhile (fun c => !pyIsSpace c)).head? = some d := by
          rw [hr0]
          rfl
        have hdf := dropWhile_head_false hh
        simpa using hdf
      have hdmem : d ∈ x := by
        rw [← hx, hr0]
        exact List.mem_append.mpr (Or.inr (List.mem_cons_self _ _))
      have hd' : d = ' ' := hok d hdmem hd
      cases hr'0 : r' with
      | nil =>
        exfalso
        have hxl : x = x.takeWhile (fun c => !pyIsSpace c) ++ [d] := by
          conv_lhs => rw [← hx]
          rw [hr0, hr'0]
        have hgl : x.getLast? = some d := by
          rw [hxl]
          exact List.getLast?_concat _
        have hws := hlast d hgl
        rw [hd'] at hws
        exact absurd hws (by decide)
      | cons e r'' =>
        have hxl : x = x.takeWhile (fun c => !pyIsSpace c) ++ d :: e :: r'' := by
          conv_lhs => rw [← hx]
          rw [hr0, hr'0]
      -- the tail after the separating space
        have hetwo : noSeq ' ' ' ' (d :: e :: r'') :=
          noSeq_append_right (by rw [← hxl]; exact htwo)
        have hens : pyIsSpace e = false := by
          have hp := noSeq_pair hetwo
          by_cases he : pyIsSpace e = true
          · have he' : e = ' ' := hok e (by rw [hxl]; simp) he
            exact absurd ⟨hd', he'⟩ hp
          · rw [Bool.not_eq_true] at he
            exact he
        have hw1len : 1 ≤ (x.takeWhile (fun c => !pyIsSpace c)).length := by
          cases hw : x.takeWhile (fun c => !pyIsSpace c) with
          | nil => exact absurd hw hw1ne
          | cons u us => simp
        have hlen' : (e :: r'').length ≤ n := by
          have hxlen : x.length = (x.takeWhile (fun c => !pyIsSpace c)).length +
              (d :: e :: r'').length := by
            conv_lhs => rw [hxl]
            rw [List.length_append]
          simp only [List.length_cons] at hxlen hlen ⊢
          omega
        have hok' : ∀ c ∈ e :: r'', pyIsSpace c = true → c = ' ' := by
          intro c hc
          exact hok c (by rw [hxl]; simp [hc])
        have htwo' : noSeq ' ' ' ' (e :: r'') := noSeq_tail hetwo
        have hhead' : ∀ c, (e :: r'').head? = some c → pyIsSpace c = false := by
          intro c hc
          injection hc with hc'
          rw [← hc']
          exact hens
        have hlast' : ∀ c, (e :: r'').getLast? = some c →
            pyIsSpace c = false := by
          intro c hc
          apply hlast
          rw [hxl, List.getLast?_append, List.getLast?_cons_cons, hc]
          rfl
        obtain ⟨W', hW'ne, hW'w, hW'eq⟩ :=
          IH (e :: r'') hlen' hok' htwo' hhead' hlast' (List.cons_ne_nil _ _)
        refine ⟨x.takeWhile (fun c => !pyIsSpace c) :: W',
          List.cons_ne_nil _ _, ?_, ?_⟩
        · intro w hw
          rcases List.mem_cons.mp hw with h | h
          · subst h
            exact ⟨hw1ne, fun c hc => ⟨hw1chars c hc, hw1mem c hc⟩⟩
          · obtain ⟨h1, h2⟩ := hW'w w h
            refine ⟨h1, fun c hc => ⟨(h2 c hc).1, ?_⟩⟩
            have hcm : c ∈ e :: r'' := (h2 c hc).2
            rw [hxl]
            simp only [List.mem_append, List.mem_cons]
            rcases List.mem_cons.mp hcm with h' | h'
            · exact Or.inr (Or.inr (Or.inl h'))
            · exact Or.inr (Or.inr (Or.inr h'))
        · cases hW'c : W' with
          | nil => exact absurd hW'c hW'ne
          | cons z zs =>
            conv_lhs => rw [hxl]
            rw [pyJoin_cons_cons, hd', List.append_assoc]
            congr 1
            show ' ' :: e :: r'' = [' '] ++ pyJoin [' '] (z :: zs)
            rw [← hW'c, ← hW'eq]
            rfl

theorem pySplitChar_append_dot (a b : PyStr) :
    pySplitChar '.' (a ++ '.' :: b) = pySplitChar '.' a ++ pySplitChar '.' b := by
  simp only [pySplitChar]
  exact pySplitOnP_append_sep (by decide) a b

theorem pySplitChar_no_dot {x : PyStr} (h : ∀ c ∈ x, ¬(c = '.')) :
    pySplitChar '.' x = [x] := by
  simp only [pySplitChar]
  exact pySplitOnP_no_sep x (fun c hc => decide_eq_false (h c hc))

theorem noSeq_join_sep_safe {a b : Char} (ha : ¬(' ' = a)) (hb : ¬(' ' = b)) :
    ∀ {W : List PyStr}, (∀ w ∈ W, noSeq a b w) →
      noSeq a b (pyJoin [' '] W) := by
  intro W
  induction W with
  | nil => intro _; trivial
  | cons w ws IH =>
    intro hW
    cases ws with
    | nil => exact hW w (List.mem_cons_self w [])
    | cons w' ws' =>
      rw [pyJoin_cons_cons, List.append_assoc]
      apply noSeq_append (hW w (List.mem_cons_self w _))
      · show noSeq a b (' ' :: pyJoin [' '] (w' :: ws'))
        apply noSeq_cons
        · intro hd _ hab
          exact ha hab.1
        · exact IH (fun u hu => hW u (List.mem_cons_of_mem w hu))
      · rintro ⟨_, h2⟩
        injection h2 with h3
        exact hb h3

/-- Every sentence produced by the formatter is non-empty, fixed by
`strip`, period-free, free of the two-character `\n` escape, and is a
single-space join of non-empty whitespace-free words. -/
theorem sentencesOf_props (s : PyStr) :
    ∀ x ∈ sentencesOf s,
      x ≠ [] ∧ pyStrip x = x ∧ (∀ c ∈ x, ¬(c = '.')) ∧ noSeq '\\' 'n' x ∧
      ∃ W, W ≠ [] ∧ (∀ w ∈ W, w ≠ [] ∧ ∀ c ∈ w, pyIsSpace c = false) ∧
        x = pyJoin [' '] W := by
  intro x hx
  simp only [sentencesOf] at hx
  rw [List.mem_filter] at hx
  obtain ⟨hmem, hne'⟩ := hx
  have hne : x ≠ [] := by simpa using hne'
  obtain ⟨p, hp, hpx⟩ := List.mem_map.mp hmem
  have htok : ∀ t ∈ pyTokens (pyReplacePair '\\' 'n' ['\n'] s),
      t ≠ [] ∧ ∀ c ∈ t, pyIsSpace c = false := by
    intro t ht
    constructor
    · simpa using (List.mem_filter.mp ht).2
    · intro c hc
      exact (mem_pySplitOnP pyIsSpace _ t (List.mem_filter.mp ht).1 c hc).1
  have hpinf : p <:+: pyCollapse (pyReplacePair '\\' 'n' ['\n'] s) :=
    pySplitOnP_piece_within _ p hp
  have hchars : ∀ c ∈ pyStrip p,
      ¬(c = '.') ∧ (c = ' ' ∨ pyIsSpace c = false) := by
    intro c hc
    have hcp : c ∈ p := mem_within (pyStrip_within p) hc
    have h2 := mem_pySplitOnP _ _ p hp c hcp
    constructor
    · intro hcd
      have hd := h2.1
      rw [hcd] at hd
      simp at hd
    · have h3 : c ∈ pyJoin [' ']
          (pyTokens (pyReplacePair '\\' 'n' ['\n'] s)) := h2.2
      rcases mem_pyJoin_space h3 with h | ⟨w, hw, hcw⟩
      · exact Or.inl h
      · exact Or.inr ((htok w hw).2 c hcw)
  have hok : ∀ c ∈ pyStrip p, pyIsSpace c = true → c = ' ' := by
    intro c hc hcs
    rcases (hchars c hc).2 with h | h
    · exact h
    · rw [h] at hcs
      exact absurd hcs (by simp)
  have hdotfree : ∀ c ∈ pyStrip p, ¬(c = '.') := fun c hc => (hchars c hc).1
  have ht2seq : noSeq '\\' 'n'
      (pyCollapse (pyReplacePair '\\' 'n' ['\n'] s)) := by
    apply noSeq_join_sep_safe (by decide) (by decide)
    intro w hw
    exact noSeq_within
      (pySplitOnP_piece_within _ w (List.mem_filter.mp hw).1)
      (noSeq_replacePair s)
  have ht2two : noSeq ' ' ' '
      (pyCollapse (pyReplacePair '\\' 'n' ['\n'] s)) :=
    noSeq_space_join htok
  have hxseq : noSeq '\\' 'n' (pyStrip p) :=
    noSeq_within (pyStrip_within p) (noSeq_within hpinf ht2seq)
  have hxtwo : noSeq ' ' ' ' (pyStrip p) :=
    noSeq_within (pyStrip_within p) (noSeq_within hpinf ht2two)
  have hnep : pyStrip p ≠ [] := by rw [hpx]; exact hne
  obtain ⟨W, hWne, hWw, hWeq⟩ :=
    norm_decomp (pyStrip p).length (pyStrip p) le_rfl hok hxtwo
      (fun c h => pyStrip_head_false h) (fun c h => pyStrip_getLast_false h)
      hnep
  subst hpx
  exact ⟨hne, pyStrip_idem p, hdotfree, hxseq,
    W, hWne, (fun w hw => ⟨(hWw w hw).1, fun c hc => ((hWw w hw).2 c hc).1⟩),
    hWeq⟩

theorem tokens_sentences_dot :
    ∀ {S : List PyStr}, S ≠ [] →
      pyTokens (pyJoin ((".\n\n").toList) S ++ ['.'])
        = (S.map (fun x => pyTokens (x ++ ['.']))).flatten := by
  intro S
  induction S with
  | nil => intro h; exact absurd rfl h
  | cons x rest IH =>
    intro _
    cases rest with
    | nil =>
      show pyTokens (x ++ ['.']) = _
      simp
    | cons y rest' =>
      have h1 : pyJoin ((".\n\n").toList) (x :: y :: rest') ++ ['.']
          = (x ++ ['.']) ++ '\n' :: ('\n' ::
              (pyJoin ((".\n\n").toList) (y :: rest') ++ ['.'])) := by
        rw [pyJoin_cons_cons]
        show (x ++ ('.' :: '\n' :: ['\n']) ++ _) ++ ['.'] = _
        simp [List.append_assoc]
      rw [h1, pyTokens_append_space (by decide : pyIsSpace '\n' = true),
        pyTokens_cons_space (by decide : pyIsSpace '\n' = true),
        IH (List.cons_ne_nil y rest')]
      rfl

theorem collapse_sentences {S : List PyStr} (hSne : S ≠ [])
    (hW : ∀ x ∈ S, ∃ W, W ≠ [] ∧
      (∀ w ∈ W, w ≠ [] ∧ ∀ c ∈ w, pyIsSpace c = false) ∧
      x = pyJoin [' '] W) :
    pyCollapse (pyJoin ((".\n\n").toList) S ++ ['.'])
      = pyJoin [' '] (S.map (fun x => x ++ ['.'])) := by
  simp only [pyCollapse]
  rw [tokens_sentences_dot hSne]
  have hnonempty : ∀ A ∈ S.map (fun x => pyTokens (x ++ ['.'])), A ≠ [] := by
    intro A hA
    obtain ⟨x, hxS, hxA⟩ := List.mem_map.mp hA
    obtain ⟨W, hWne, hWw, hWeq⟩ := hW x hxS
    have hdot : x ++ ['.'] = pyJoin [' '] (extendLast ['.'] W) := by
      rw [hWeq]
      exact pyJoin_extendLast _ _ W hWne
    rw [← hxA, hdot, pyTokens_join (extendLast_words hWw)]
    exact extendLast_ne_nil _ _
  rw [pyJoin_flatten hnonempty, List.map_map]
  apply congrArg
  apply List.map_congr_left
  intro x hxS
  obtain ⟨W, hWne, hWw, hWeq⟩ := hW x hxS
  have hdot : x ++ ['.'] = pyJoin [' '] (extendLast ['.'] W) := by
    rw [hWeq]
    exact pyJoin_extendLast _ _ W hWne
  show pyJoin [' '] (pyTokens (x ++ ['.'])) = x ++ ['.']
  rw [hdot, pyTokens_join (extendLast_words hWw)]

theorem split_strip_recover :
    ∀ {S : List PyStr},
      (∀ x ∈ S, x ≠ [] ∧ pyStrip x = x ∧ ∀ c ∈ x, ¬(c = '.')) →
      ((pySplitChar '.' (pyJoin [' ']
          (S.map (fun x => x ++ ['.'])))).map pyStrip).filter (· ≠ []) = S := by
  intro S
  induction S with
  | nil => intro _; rfl
  | cons x rest IH =>
    intro h
    have hx := h x (List.mem_cons_self x rest)
    cases rest with
    | nil =>
      show ((pySplitChar '.' (x ++ ['.'])).map pyStrip).filter (· ≠ []) = [x]
      have h1 : pySplitChar '.' (x ++ '.' :: ([] : PyStr)) = [x, []] := by
        rw [pySplitChar_append_dot, pySplitChar_no_dot hx.2.2]
        rfl
      rw [h1]
      simp only [List.map_cons, List.map_nil, hx.2.1]
      have h2 : pyStrip ([] : PyStr) = [] := rfl
      rw [h2]
      simp [hx.1]
    | cons y rest' =>
      have hjoin : pyJoin [' '] (((x :: y :: rest')).map (fun u => u ++ ['.']))
          = x ++ '.' :: (' ' :: pyJoin [' ']
              ((y :: rest').map (fun u => u ++ ['.']))) := by
        simp only [List.map_cons]
        rw [pyJoin_cons_cons]
        show (x ++ ['.']) ++ [' '] ++ _ = _
        simp [List.append_assoc]
      rw [hjoin, pySplitChar_append_dot, pySplitChar_no_dot hx.2.2]
      obtain ⟨q, qs, hq, hcons⟩ := @pySplitOnP_cons_neg
        (fun c => decide (c = '.')) ' ' (by decide)
        (pyJoin [' '] ((y :: rest').map (fun u => u ++ ['.'])))
      simp only [pySplitChar] at hq hcons ⊢
      rw [hcons]
      simp only [List.singleton_append, List.map_cons, hx.2.1,
        pyStrip_cons_space]
      have hIH := IH (fun u hu => h u (List.mem_cons_of_mem x hu))
      simp only [pySplitChar] at hIH
      rw [hq, List.map_cons] at hIH
      rw [List.filter_cons_of_pos (by simp [hx.1])]
      rw [hIH]

/-- The sentence list is unchanged by re-running the whole format pipeline
on the formatter's own output. -/
theorem sentencesOf_format (s : PyStr) :
    sentencesOf (pyJoin ((".\n\n").toList) (sentencesOf s) ++ ['.'])
      = sentencesOf s := by
  cases hS : sentencesOf s with
  | nil => decide
  | cons x0 S' =>
    have props := sentencesOf_props s
    rw [hS] at props
    have hSne : x0 :: S' ≠ [] := List.cons_ne_nil x0 S'
    have hnoseq : noSeq '\\' 'n'
        (pyJoin ((".\n\n").toList) (x0 :: S') ++ ['.']) :=
      noSeq_bsn_suffix_dot (fun x hx => (props x hx).2.2.2.1)
    have hrep : pyReplacePair '\\' 'n' ['\n']
        (pyJoin ((".\n\n").toList) (x0 :: S') ++ ['.'])
        = pyJoin ((".\n\n").toList) (x0 :: S') ++ ['.'] :=
      pyReplacePair_id_of_noSeq hnoseq
    simp only [sentencesOf]
    rw [hrep, collapse_sentences hSne
      (fun x hx => (props x hx).2.2.2.2)]
    exact split_strip_recover
      (fun x hx => ⟨(props x hx).1, (props x hx).2.1, (props x hx).2.2.1⟩)

/-- C7: `format_transcript_text` is idempotent: formatting the formatter's
own output changes nothing. -/
theorem c7_format_idempotent (s : PyStr) :
    format_transcript_text (format_transcript_text s)
      = format_transcript_text s := by
  simp only [format_transcript_text]
  rw [sentencesOf_format]

end Pilatus
